import Mathlib

/-!
Verification of the TiKV 4.0 GC / statistics / aggregate claims.

The pure parts of the repository (`storage/kv/stats.rs`,
`aggr_fn/impl_max_min.rs`) are embedded directly.  The GC worker and the
lock observer are only exercised by the failpoint tests under
`tests/failpoints/cases/test_gc_worker.rs`; their implementation is not
part of the provided sources, so those components are modelled from the
specification (each such definition is marked `Modelled from the spec:`).
-/

set_option maxHeartbeats 1000000

namespace TikvGc

/-! ## `storage/kv/stats.rs` -/

/-- Width bound of a `usize` counter (64-bit targets). -/
def USIZE_MAX : Nat := 2 ^ 64 - 1

/-- Rust `usize::saturating_add` on 64-bit counters: the mathematical sum
when it is representable, `usize::MAX` otherwise (no wrap-around). -/
def saturating_add (a b : Nat) : Nat :=
  if a + b ≤ USIZE_MAX then a + b else USIZE_MAX

/-- Modelled from the spec: `FlowStatistics` comes from the external
`raftstore::store` crate (out of scope per spec §1); it carries the
`read_keys`/`read_bytes` flow counters and its `add` is the same
field-wise saturating addition the in-scope counters use. -/
structure FlowStatistics where
  read_keys : Nat
  read_bytes : Nat
deriving DecidableEq, Repr

/-- Modelled from the spec: field-wise saturating `add` of the external
`FlowStatistics`. -/
def FlowStatistics.add (s other : FlowStatistics) : FlowStatistics :=
  { read_keys := saturating_add s.read_keys other.read_keys
    read_bytes := saturating_add s.read_bytes other.read_bytes }

/-- `CfStatistics` (stats.rs): the per-column-family scan counters. -/
structure CfStatistics where
  processed : Nat
  get : Nat
  next : Nat
  prev : Nat
  seek : Nat
  seek_for_prev : Nat
  over_seek_bound : Nat
  flow_stats : FlowStatistics
  next_tombstone : Nat
  prev_tombstone : Nat
  seek_tombstone : Nat
  seek_for_prev_tombstone : Nat
deriving DecidableEq, Repr

/-- `CfStatistics::default()`: all counters zero. -/
def CfStatistics.default : CfStatistics :=
  { processed := 0, get := 0, next := 0, prev := 0, seek := 0
    seek_for_prev := 0, over_seek_bound := 0
    flow_stats := { read_keys := 0, read_bytes := 0 }
    next_tombstone := 0, prev_tombstone := 0, seek_tombstone := 0
    seek_for_prev_tombstone := 0 }

/-- `CfStatistics::add` (stats.rs lines 64-79): saturating addition on every
field, delegating to `FlowStatistics::add` for the flow counters. -/
def CfStatistics.add (s other : CfStatistics) : CfStatistics :=
  { processed := saturating_add s.processed other.processed
    get := saturating_add s.get other.get
    next := saturating_add s.next other.next
    prev := saturating_add s.prev other.prev
    seek := saturating_add s.seek other.seek
    seek_for_prev := saturating_add s.seek_for_prev other.seek_for_prev
    over_seek_bound := saturating_add s.over_seek_bound other.over_seek_bound
    flow_stats := s.flow_stats.add other.flow_stats
    next_tombstone := saturating_add s.next_tombstone other.next_tombstone
    prev_tombstone := saturating_add s.prev_tombstone other.prev_tombstone
    seek_tombstone := saturating_add s.seek_tombstone other.seek_tombstone
    seek_for_prev_tombstone :=
      saturating_add s.seek_for_prev_tombstone other.seek_for_prev_tombstone }

/-- `Statistics` (stats.rs): per-family statistics for lock/write/data. -/
structure Statistics where
  lock : CfStatistics
  write : CfStatistics
  data : CfStatistics
deriving DecidableEq, Repr

/-- `Statistics::default()`. -/
def Statistics.default : Statistics :=
  { lock := CfStatistics.default, write := CfStatistics.default
    data := CfStatistics.default }

/-- `Statistics::add` (stats.rs lines 113-117). -/
def Statistics.add (s other : Statistics) : Statistics :=
  { lock := s.lock.add other.lock
    write := s.write.add other.write
    data := s.data.add other.data }

/-- Modelled from the spec: the column-family names of the three logical
families of the versioned key space (spec §2: default, lock, write); the
string constants live in the external `engine_traits` crate. -/
def CF_DEFAULT : String := "default"

/-- Modelled from the spec: name of the lock family. -/
def CF_LOCK : String := "lock"

/-- Modelled from the spec: name of the write family. -/
def CF_WRITE : String := "write"

/-- Which field of `Statistics` a column-family name selects. -/
inductive CfSel where
  | data
  | lock
  | write
deriving DecidableEq, Repr

/-- `Statistics::mut_cf_statistics` (stats.rs lines 127-137): empty name
selects `data`; `CF_DEFAULT`/`CF_LOCK`/`CF_WRITE` select their family;
every other name hits the `unreachable!()` arm, modelled as `none`. -/
def Statistics.mut_cf_statistics (cf : String) : Option CfSel :=
  if cf.isEmpty then some CfSel.data
  else if cf = CF_DEFAULT then some CfSel.data
  else if cf = CF_LOCK then some CfSel.lock
  else if cf = CF_WRITE then some CfSel.write
  else none

/-! ## `tidb_query/src/aggr_fn/impl_max_min.rs` -/

/-- The `Extremum` marker types `Max`/`Min` of impl_max_min.rs. -/
inductive ExtremumKind where
  | Max
  | Min
deriving DecidableEq, Repr

/-- The associated constant `E::ORD`: `Ordering::Less` for `Max`,
`Ordering::Greater` for `Min`. -/
def ExtremumKind.ORD : ExtremumKind → Ordering
  | .Max => .lt
  | .Min => .gt

/-- Rust's derived `Ord` for `Option<T>`: `None` sorts below `Some`. -/
def optionCmp {T : Type} (cmp : T → T → Ordering) :
    Option T → Option T → Ordering
  | none, none => .eq
  | none, some _ => .lt
  | some _, none => .gt
  | some a, some b => cmp a b

/-- `AggFnStateExtremum<T, E>` (impl_max_min.rs lines 213-221): the running
MAX/MIN aggregate state. -/
structure AggFnStateExtremum (T : Type) where
  extremum_value : Option T
deriving DecidableEq, Repr

/-- `AggFnStateExtremum::new()`: fresh state with no value yet. -/
def AggFnStateExtremum.new (T : Type) : AggFnStateExtremum T := ⟨none⟩

/-- `AggFnStateExtremum::update_concrete` (impl_max_min.rs lines 246-257):
replace the stored extremum by `value` when `value` is `Some` and either no
extremum is stored yet or the stored one compares as `E::ORD` against the
new value; always returns `Ok`. -/
def AggFnStateExtremum.update_concrete {T : Type} [LinearOrder T]
    (E : ExtremumKind) (st : AggFnStateExtremum T) (value : Option T) :
    Except String (AggFnStateExtremum T) :=
  if value.isSome &&
      (st.extremum_value.isNone ||
        decide (optionCmp compare st.extremum_value value = E.ORD)) then
    Except.ok ⟨value⟩
  else
    Except.ok st

/-- `AggFnStateExtremum::push_result` (impl_max_min.rs lines 260-263):
appends the stored extremum (possibly `None`) to the output column. -/
def AggFnStateExtremum.push_result {T : Type} (st : AggFnStateExtremum T)
    (target : List (Option T)) : List (Option T) :=
  target ++ [st.extremum_value]

/-- Folding a sequence of `update` calls over the fresh state. -/
def runUpdates {T : Type} [LinearOrder T] (E : ExtremumKind)
    (vs : List (Option T)) : Except String (AggFnStateExtremum T) :=
  vs.foldlM (fun st v => st.update_concrete E v) (AggFnStateExtremum.new T)

/-- Specification-level single step: what `update_concrete` does to the
stored option, phrased with `max`/`min`. -/
def stepSpec {T : Type} [LinearOrder T] (E : ExtremumKind)
    (acc : Option T) (v : Option T) : Option T :=
  match v with
  | none => acc
  | some b =>
    match acc with
    | none => some b
    | some a =>
      match E with
      | .Max => some (max a b)
      | .Min => some (min a b)

/-- All counters of a `CfStatistics` are representable `usize` values. -/
def CfStatistics.wf (s : CfStatistics) : Prop :=
  s.processed ≤ USIZE_MAX ∧ s.get ≤ USIZE_MAX ∧ s.next ≤ USIZE_MAX ∧
  s.prev ≤ USIZE_MAX ∧ s.seek ≤ USIZE_MAX ∧ s.seek_for_prev ≤ USIZE_MAX ∧
  s.over_seek_bound ≤ USIZE_MAX ∧ s.flow_stats.read_keys ≤ USIZE_MAX ∧
  s.flow_stats.read_bytes ≤ USIZE_MAX ∧ s.next_tombstone ≤ USIZE_MAX ∧
  s.prev_tombstone ≤ USIZE_MAX ∧ s.seek_tombstone ≤ USIZE_MAX ∧
  s.seek_for_prev_tombstone ≤ USIZE_MAX

instance (s : CfStatistics) : Decidable s.wf := by
  unfold CfStatistics.wf; infer_instance

/-- All counters of a `Statistics` are representable `usize` values. -/
def Statistics.wf (s : Statistics) : Prop :=
  s.lock.wf ∧ s.write.wf ∧ s.data.wf

instance (s : Statistics) : Decidable s.wf := by
  unfold Statistics.wf; infer_instance

/-! ## Admission-Controlled Task Queue (spec §4.1, §5)

The GC worker implementation (`tikv::server::gc_worker`) is not among the
provided sources; only its failpoint tests are.  The queue is therefore
modelled from the specification. -/

/-- Modelled from the spec (§4.1): outcome of `submit`, either acceptance
or the synchronous `TooBusy` flow-control rejection. -/
inductive SubmitResult where
  | accepted
  | tooBusy
deriving DecidableEq, Repr

/-- Modelled from the spec (§4.1, §5): state of one node's
Admission-Controlled Task Queue: the configured slot bound N
(`GC_MAX_EXECUTING_TASKS`), the ids of tasks currently occupying execution
slots, and the log of completion callbacks fired so far. -/
structure GcWorkerState where
  maxTasks : Nat
  running : List Nat
  fired : List Nat
deriving DecidableEq, Repr

/-- Modelled from the spec (§4.1): `submit(task)` accepts iff the number
of tasks currently occupying an execution slot is below N; otherwise it
fails immediately with `TooBusy` and performs no side effect. -/
def submit (st : GcWorkerState) (t : Nat) : GcWorkerState × SubmitResult :=
  if st.running.length < st.maxTasks then
    ({ st with running := st.running ++ [t] }, SubmitResult.accepted)
  else
    (st, SubmitResult.tooBusy)

/-- Modelled from the spec (§4.1): completion of an admitted task fires
its callback and releases its slot; a task that occupies no slot has no
callback to fire, so its completion is a no-op. -/
def complete (st : GcWorkerState) (t : Nat) : GcWorkerState :=
  if t ∈ st.running then
    { st with running := st.running.erase t, fired := st.fired ++ [t] }
  else st

/-- Events of an execution history of the queue. -/
inductive QEvent where
  | submit (t : Nat)
  | complete (t : Nat)
deriving DecidableEq, Repr

/-- One step of the queue's execution history. -/
def qstep (st : GcWorkerState) : QEvent → GcWorkerState
  | .submit t => (submit st t).1
  | .complete t => complete st t

/-- A whole execution history of the queue. -/
def qrun (st : GcWorkerState) (tr : List QEvent) : GcWorkerState :=
  tr.foldl qstep st

/-! ## Lock Observer and Physical Lock Scanner (spec §4.2, §4.3) -/

/-- Modelled from the spec (§3): a `LockRecord`: owning key, start
timestamp, and lock metadata (primary key). -/
structure LockRecord where
  key : Nat
  start_ts : Nat
  primary : Nat
deriving DecidableEq, Repr

/-- Modelled from the spec (§4.2): the union of a full pagination round of
`PhysicalScanLock` over a local lock family: every LockRecord with start
timestamp ≤ max_ts. -/
def physicalScanAll (db : List LockRecord) (max_ts : Nat) :
    List LockRecord :=
  db.filter (fun l => l.start_ts ≤ max_ts)

/-- Modelled from the spec (§4.3, §5): one node's lock observer together
with the node's persisted lock family `db` and the queue of pending
notifications: the apply path persists a lock write durably first and
lets the notification hook run strictly afterwards. -/
structure ObserverNode where
  db : List LockRecord
  max_ts : Option Nat
  obsLocks : List LockRecord
  clean : Bool
  pending : List LockRecord
deriving DecidableEq, Repr

/-- Modelled from the spec (§4.3): `RegisterLockObserver{max_ts}`:
transition to Active with an empty accumulator and `clean = true`,
superseding any prior observer state. -/
def registerLockObserver (st : ObserverNode) (ts : Nat) : ObserverNode :=
  { st with max_ts := some ts, obsLocks := [], clean := true }

/-- Modelled from the spec (§4.3): `check(max_ts)` returns the current
accumulated set and reliability flag when `max_ts` matches the registered
value, and an empty clean result (a no-op read) otherwise. -/
def checkLockObserver (st : ObserverNode) (ts : Nat) :
    List LockRecord × Bool :=
  match st.max_ts with
  | some t => if t = ts then (st.obsLocks, st.clean) else ([], true)
  | none => ([], true)

/-- Events on the apply path of one node: a durable lock write (which
enqueues its notification), a successful notification delivery, and a
failed notification delivery. -/
inductive ApplyEvent where
  | persist (l : LockRecord)
  | deliverOk
  | deliverFail
deriving DecidableEq, Repr

/-- Modelled from the spec (§4.3): the apply path appends the lock write
to the durable lock family and only then enqueues the notification for
the hook: the write is durably persisted strictly before any
notification for it can run. -/
def persistStep (st : ObserverNode) (l : LockRecord) : ObserverNode :=
  { st with db := st.db ++ [l], pending := st.pending ++ [l] }

/-- Modelled from the spec (§4.3): successful delivery of the oldest
pending notification: if the write's start timestamp is ≤ the active
max_ts, the record is appended to the accumulator. -/
def deliverStep (st : ObserverNode) : ObserverNode :=
  match st.pending with
  | [] => st
  | l :: rest =>
    match st.max_ts with
    | none => { st with pending := rest }
    | some ts =>
      if l.start_ts ≤ ts then
        { st with pending := rest, obsLocks := st.obsLocks ++ [l] }
      else
        { st with pending := rest }

/-- Modelled from the spec (§4.3): failed delivery does not fail the
write path: the observer flips `clean` to false and drops that
notification (a notification the observer would have ignored anyway
leaves `clean` untouched). -/
def deliverFailStep (st : ObserverNode) : Except String ObserverNode :=
  match st.pending with
  | [] => Except.ok st
  | l :: rest =>
    match st.max_ts with
    | none => Except.ok { st with pending := rest }
    | some ts =>
      if l.start_ts ≤ ts then
        Except.ok { st with pending := rest, clean := false }
      else
        Except.ok { st with pending := rest }

/-- One step of the apply path; the `Except` layer records whether an
error is surfaced to the write path (none ever is). -/
def applyStep (st : ObserverNode) : ApplyEvent → Except String ObserverNode
  | .persist l => Except.ok (persistStep st l)
  | .deliverOk => Except.ok (deliverStep st)
  | .deliverFail => deliverFailStep st

/-- A whole apply-path history of one node. -/
def applyRun (st : ObserverNode) (tr : List ApplyEvent) :
    Except String ObserverNode :=
  tr.foldlM applyStep st

/-- Inductive invariant of one node's apply path with an observer
registered for `ts`: every accumulated lock is durably persisted and
relevant, and every pending notification's write is already durable. -/
def ObsInv (ts : Nat) (st : ObserverNode) : Prop :=
  st.max_ts = some ts ∧
  (∀ l ∈ st.obsLocks, l ∈ st.db ∧ l.start_ts ≤ ts) ∧
  (∀ l ∈ st.pending, l ∈ st.db)

/-! ## GC task execution: version reclamation (spec §4.4) -/

/-- Modelled from the spec (§4.4): the newest committed version
≤ safe_point among a key's committed versions, if any. -/
def newestLE (sp : Nat) : List Nat → Option Nat
  | [] => none
  | v :: rest =>
    match newestLE sp rest with
    | none => if v ≤ sp then some v else none
    | some m => if v ≤ sp then some (max v m) else some m

/-- Modelled from the spec (§4.4): a committed version survives `Gc` iff
it is above the safe point or it is the newest version ≤ safe_point. -/
def gcKeep (sp : Nat) (vs : List Nat) (v : Nat) : Bool :=
  decide (sp < v) || decide (newestLE sp vs = some v)

/-- Modelled from the spec (§4.4): reclamation of one key's committed
versions: retains every version above the safe point and the newest
version ≤ safe_point, deletes the older ones. -/
def gcKey (sp : Nat) (vs : List Nat) : List Nat :=
  vs.filter (gcKeep sp vs)

/-- Modelled from the spec (§3, §4.4): one region's slice of the
versioned key space: per-key committed version lists, plus the lock
family where each record carries its resolved flag. -/
structure RegionData where
  entries : List (Nat × List Nat)
  locks : List (LockRecord × Bool)
deriving DecidableEq, Repr

/-- Modelled from the spec (§4.4): `Gc{region, safe_point}` reclaims
superseded committed versions per key and deletes only
resolved-but-superseded locks with start timestamp strictly below the
safe point. -/
def gcRegion (sp : Nat) (rd : RegionData) : RegionData :=
  { entries := rd.entries.map (fun e => (e.1, gcKey sp e.2))
    locks := rd.locks.filter
      (fun lr => !(lr.2 && decide (lr.1.start_ts < sp))) }

/-! ## The green-GC round across stores (spec §2, §4.3)

The round is modelled from the instant `RegisterLockObserver{max_ts}` has
completed on all stores: every store starts with an empty, clean
accumulator and no scan result.  Leader transfers themselves do not move
any persisted data (the physical scan bypasses the routing layer); the
dangerous topology change is peer removal, which destroys the local lock
family.  The replication-layer guarantee (spec §4.3/§6: a new authority
must have applied everything the previous authority applied before the
old peer can be removed) appears as the guard of `removePeer`. -/

/-- Modelled from the spec: per-store state during one green-GC round. -/
structure StoreState where
  applied : List LockRecord
  obs : List LockRecord
  alive : Bool
  scanned : Option (List LockRecord)
deriving DecidableEq, Repr

/-- Events that may interleave with the round on a cluster of `k`
stores. -/
inductive RoundEvent (k : Nat) where
  | applyLock (n : Fin k) (l : LockRecord)
  | scanStore (n : Fin k)
  | removePeer (n m : Fin k)
deriving DecidableEq

/-- Modelled from the spec: one interleaving step of the round.  A lock
write applied on a live store is durably persisted and, having been
applied after registration, is accumulated by that store's observer when
its start timestamp is ≤ max_ts.  The coordinator physically scans each
store once.  A peer may only be removed when a different live store has
already applied everything it applied; removal destroys the local lock
family but the store-wide observer state survives. -/
def roundStep {k : Nat} (max_ts : Nat) (st : Fin k → StoreState) :
    RoundEvent k → (Fin k → StoreState)
  | .applyLock n l =>
    if (st n).alive then
      Function.update st n
        { st n with
            applied := (st n).applied ++ [l]
            obs := if l.start_ts ≤ max_ts then (st n).obs ++ [l]
                   else (st n).obs }
    else st
  | .scanStore n =>
    match (st n).scanned with
    | some _ => st
    | none =>
      Function.update st n
        { st n with scanned := some (physicalScanAll (st n).applied max_ts) }
  | .removePeer n m =>
    if n ≠ m ∧ (st m).alive = true ∧
        (∀ l ∈ (st n).applied, l ∈ (st m).applied) then
      Function.update st n { st n with applied := [], alive := false }
    else st

/-- A whole interleaving of the round. -/
def runRound {k : Nat} (max_ts : Nat) (st : Fin k → StoreState)
    (tr : List (RoundEvent k)) : Fin k → StoreState :=
  tr.foldl (roundStep max_ts) st

/-- A lock appears in the union of the physical scan results and the
observer-accumulated sets of the round. -/
def collectedLock {k : Nat} (st : Fin k → StoreState) (l : LockRecord) :
    Prop :=
  ∃ n, l ∈ (st n).obs ∨ ∃ r, (st n).scanned = some r ∧ l ∈ r

/-- Internal bookkeeping for the completeness proof: the lock is already
collected, or some store still durably holds it and will hand it to the
coordinator through its scan or its observer. -/
def trackedLock {k : Nat} (st : Fin k → StoreState) (l : LockRecord) :
    Prop :=
  collectedLock st l ∨
    ∃ n, l ∈ (st n).applied ∧
      ((st n).scanned = none ∨ l ∈ (st n).obs)

/-- Inductive invariant of the round: a dead store holds no data, and on
every store a relevant applied lock is either accumulated by the observer
or guaranteed to be in the store's scan result once it exists. -/
def RoundInv {k : Nat} (max_ts : Nat) (st : Fin k → StoreState) : Prop :=
  (∀ n, (st n).alive = false → (st n).applied = []) ∧
  (∀ n, ∀ l ∈ (st n).applied, l.start_ts ≤ max_ts →
    l ∈ (st n).obs ∨ ∀ r, (st n).scanned = some r → l ∈ r)

theorem saturating_add_eq_min (a b : Nat) :
    saturating_add a b = min (a + b) USIZE_MAX := by
  rw [saturating_add, Nat.min_def]

theorem saturating_add_zero_right {a : Nat} (h : a ≤ USIZE_MAX) :
    saturating_add a 0 = a := by
  simp [saturating_add, h]

theorem saturating_add_zero_left {a : Nat} (h : a ≤ USIZE_MAX) :
    saturating_add 0 a = a := by
  simp [saturating_add, h]

theorem CfStatistics.add_default_right {a : CfStatistics} (h : a.wf) :
    a.add CfStatistics.default = a := by
  obtain ⟨h1, h2, h3, h4, h5, h6, h7, h8, h9, h10, h11, h12, h13⟩ := h
  cases a with
  | mk p g n pr s sp o fl nt pt st spt =>
    cases fl with
    | mk rk rb =>
      simp only [CfStatistics.add, CfStatistics.default, FlowStatistics.add,
        CfStatistics.mk.injEq, FlowStatistics.mk.injEq] at *
      exact ⟨saturating_add_zero_right h1, saturating_add_zero_right h2,
        saturating_add_zero_right h3, saturating_add_zero_right h4,
        saturating_add_zero_right h5, saturating_add_zero_right h6,
        saturating_add_zero_right h7,
        ⟨saturating_add_zero_right h8, saturating_add_zero_right h9⟩,
        saturating_add_zero_right h10, saturating_add_zero_right h11,
        saturating_add_zero_right h12, saturating_add_zero_right h13⟩

theorem CfStatistics.add_default_left {a : CfStatistics} (h : a.wf) :
    CfStatistics.default.add a = a := by
  obtain ⟨h1, h2, h3, h4, h5, h6, h7, h8, h9, h10, h11, h12, h13⟩ := h
  cases a with
  | mk p g n pr s sp o fl nt pt st spt =>
    cases fl with
    | mk rk rb =>
      simp only [CfStatistics.add, CfStatistics.default, FlowStatistics.add,
        CfStatistics.mk.injEq, FlowStatistics.mk.injEq] at *
      exact ⟨saturating_add_zero_left h1, saturating_add_zero_left h2,
        saturating_add_zero_left h3, saturating_add_zero_left h4,
        saturating_add_zero_left h5, saturating_add_zero_left h6,
        saturating_add_zero_left h7,
        ⟨saturating_add_zero_left h8, saturating_add_zero_left h9⟩,
        saturating_add_zero_left h10, saturating_add_zero_left h11,
        saturating_add_zero_left h12, saturating_add_zero_left h13⟩

/-- C9: `CfStatistics::add` (and hence `Statistics::add`) is field-wise
saturating addition: every resulting counter equals
`min (a + b) usize::MAX` (total, no wrap-around), `Statistics::add` acts
family-wise, and adding a default-initialized value on either side is the
identity. -/
theorem C9_statistics_add_saturating (a b : CfStatistics) (s t : Statistics)
    (ha : a.wf) (hs : s.wf) :
    ((a.add b).processed = min (a.processed + b.processed) USIZE_MAX ∧
     (a.add b).get = min (a.get + b.get) USIZE_MAX ∧
     (a.add b).next = min (a.next + b.next) USIZE_MAX ∧
     (a.add b).prev = min (a.prev + b.prev) USIZE_MAX ∧
     (a.add b).seek = min (a.seek + b.seek) USIZE_MAX ∧
     (a.add b).seek_for_prev =
       min (a.seek_for_prev + b.seek_for_prev) USIZE_MAX ∧
     (a.add b).over_seek_bound =
       min (a.over_seek_bound + b.over_seek_bound) USIZE_MAX ∧
     (a.add b).flow_stats.read_keys =
       min (a.flow_stats.read_keys + b.flow_stats.read_keys) USIZE_MAX ∧
     (a.add b).flow_stats.read_bytes =
       min (a.flow_stats.read_bytes + b.flow_stats.read_bytes) USIZE_MAX ∧
     (a.add b).next_tombstone =
       min (a.next_tombstone + b.next_tombstone) USIZE_MAX ∧
     (a.add b).prev_tombstone =
       min (a.prev_tombstone + b.prev_tombstone) USIZE_MAX ∧
     (a.add b).seek_tombstone =
       min (a.seek_tombstone + b.seek_tombstone) USIZE_MAX ∧
     (a.add b).seek_for_prev_tombstone =
       min (a.seek_for_prev_tombstone + b.seek_for_prev_tombstone)
         USIZE_MAX) ∧
    ((s.add t).lock = s.lock.add t.lock ∧
     (s.add t).write = s.write.add t.write ∧
     (s.add t).data = s.data.add t.data) ∧
    a.add CfStatistics.default = a ∧
    CfStatistics.default.add a = a ∧
    s.add Statistics.default = s ∧
    Statistics.default.add s = s := by
  obtain ⟨hsl, hsw, hsd⟩ := hs
  refine ⟨?_, ⟨rfl, rfl, rfl⟩, CfStatistics.add_default_right ha,
    CfStatistics.add_default_left ha, ?_, ?_⟩
  · simp [CfStatistics.add, FlowStatistics.add, saturating_add_eq_min]
  · cases s with
    | mk l w d =>
      simp only [Statistics.add, Statistics.default, Statistics.mk.injEq]
      exact ⟨CfStatistics.add_default_right hsl,
        CfStatistics.add_default_right hsw,
        CfStatistics.add_default_right hsd⟩
  · cases s with
    | mk l w d =>
      simp only [Statistics.add, Statistics.default, Statistics.mk.injEq]
      exact ⟨CfStatistics.add_default_left hsl,
        CfStatistics.add_default_left hsw,
        CfStatistics.add_default_left hsd⟩

/-- Closed witness for C9 at concrete statistics values. -/
theorem C9_statistics_add_saturating_witness :
    CfStatistics.default.add CfStatistics.default = CfStatistics.default :=
  (C9_statistics_add_saturating CfStatistics.default CfStatistics.default
    Statistics.default Statistics.default (by decide) (by decide)).2.2.2.1

/-- C10: `Statistics::mut_cf_statistics` maps the empty name to the data
family, `CF_DEFAULT`/`CF_LOCK`/`CF_WRITE` to the data/lock/write family,
and every other non-empty name to the `unreachable!()` arm (`none`). -/
theorem C10_mut_cf_statistics_dispatch :
    Statistics.mut_cf_statistics "" = some CfSel.data ∧
    Statistics.mut_cf_statistics CF_DEFAULT = some CfSel.data ∧
    Statistics.mut_cf_statistics CF_LOCK = some CfSel.lock ∧
    Statistics.mut_cf_statistics CF_WRITE = some CfSel.write ∧
    ∀ cf : String, cf ≠ "" → cf ≠ CF_DEFAULT → cf ≠ CF_LOCK →
      cf ≠ CF_WRITE → Statistics.mut_cf_statistics cf = none := by
  refine ⟨rfl, rfl, rfl, rfl, ?_⟩
  intro cf h0 h1 h2 h3
  have hne : cf.isEmpty = false := by
    rcases h : cf.isEmpty with _ | _
    · rfl
    · exact absurd ((String.isEmpty_iff cf).mp h) h0
  simp [Statistics.mut_cf_statistics, hne, h1, h2, h3]

/-- Closed witness for C10: a non-empty unknown family name reaches the
`unreachable!()` arm. -/
theorem C10_mut_cf_statistics_dispatch_witness :
    Statistics.mut_cf_statistics "raft" = none :=
  C10_mut_cf_statistics_dispatch.2.2.2.2 "raft" (by decide) (by decide)
    (by decide) (by decide)

theorem update_concrete_eq_stepSpec {T : Type} [LinearOrder T]
    (E : ExtremumKind) (acc v : Option T) :
    AggFnStateExtremum.update_concrete E ⟨acc⟩ v =
      Except.ok ⟨stepSpec E acc v⟩ := by
  cases v with
  | none => simp [AggFnStateExtremum.update_concrete, stepSpec]
  | some b =>
    cases acc with
    | none => simp [AggFnStateExtremum.update_concrete, stepSpec, optionCmp]
    | some a =>
      cases E with
      | Max =>
        by_cases h : a < b
        · have hc : compare a b = Ordering.lt := compare_lt_iff_lt.mpr h
          simp [AggFnStateExtremum.update_concrete, stepSpec, optionCmp, hc,
            ExtremumKind.ORD, max_eq_right h.le]
        · have hc : compare a b ≠ Ordering.lt := by
            rw [ne_eq, compare_lt_iff_lt]; exact h
          simp [AggFnStateExtremum.update_concrete, stepSpec, optionCmp, hc,
            ExtremumKind.ORD, max_eq_left (le_of_not_lt h)]
      | Min =>
        by_cases h : b < a
        · have hc : compare a b = Ordering.gt := compare_gt_iff_gt.mpr h
          simp [AggFnStateExtremum.update_concrete, stepSpec, optionCmp, hc,
            ExtremumKind.ORD, min_eq_right h.le]
        · have hc : compare a b ≠ Ordering.gt := by
            rw [ne_eq, compare_gt_iff_gt]; exact h
          simp [AggFnStateExtremum.update_concrete, stepSpec, optionCmp, hc,
            ExtremumKind.ORD, min_eq_left (le_of_not_lt h)]

theorem foldlM_update_eq_foldl {T : Type} [LinearOrder T] (E : ExtremumKind)
    (vs : List (Option T)) :
    ∀ acc : Option T,
      vs.foldlM (fun st v => AggFnStateExtremum.update_concrete E st v)
          (⟨acc⟩ : AggFnStateExtremum T) =
        Except.ok ⟨vs.foldl (stepSpec E) acc⟩ := by
  induction vs with
  | nil => intro acc; rfl
  | cons v vs ih =>
    intro acc
    rw [List.foldlM_cons, update_concrete_eq_stepSpec]
    simpa using ih (stepSpec E acc v)

theorem runUpdates_eq_foldl {T : Type} [LinearOrder T] (E : ExtremumKind)
    (vs : List (Option T)) :
    runUpdates E vs = Except.ok ⟨vs.foldl (stepSpec E) none⟩ :=
  foldlM_update_eq_foldl E vs none

theorem foldl_stepSpec_some {T : Type} [LinearOrder T] (E : ExtremumKind)
    (vs : List (Option T)) :
    ∀ a : T, ∃ m, vs.foldl (stepSpec E) (some a) = some m ∧
      (m = a ∨ m ∈ vs.filterMap id) ∧
      ((E = ExtremumKind.Max → a ≤ m) ∧ (E = ExtremumKind.Min → m ≤ a)) ∧
      ∀ x ∈ vs.filterMap id,
        (E = ExtremumKind.Max → x ≤ m) ∧ (E = ExtremumKind.Min → m ≤ x) := by
  induction vs with
  | nil =>
    intro a
    exact ⟨a, rfl, Or.inl rfl, ⟨fun _ => le_refl a, fun _ => le_refl a⟩,
      by simp⟩
  | cons v vs ih =>
    intro a
    cases v with
    | none =>
      obtain ⟨m, h1, h2, h3, h4⟩ := ih a
      exact ⟨m, by simpa [stepSpec] using h1, by simpa using h2, h3,
        by simpa using h4⟩
    | some b =>
      cases E with
      | Max =>
        obtain ⟨m, h1, h2, h3, h4⟩ := ih (max a b)
        have hm : max a b ≤ m := h3.1 rfl
        refine ⟨m, by simpa [stepSpec] using h1, ?_, ?_, ?_⟩
        · rcases h2 with h | h
          · rcases max_choice a b with hc | hc
            · exact Or.inl (h.trans hc)
            · exact Or.inr (by simp [h, hc])
          · exact Or.inr (by simp [h])
        · exact ⟨fun _ => (le_max_left a b).trans hm, fun h => by cases h⟩
        · intro x hx
          rcases (by simpa using hx : x = b ∨ x ∈ vs.filterMap id) with
            h | h
          · rw [h]
            exact ⟨fun _ => (le_max_right a b).trans hm,
              fun h' => by cases h'⟩
          · exact h4 x h
      | Min =>
        obtain ⟨m, h1, h2, h3, h4⟩ := ih (min a b)
        have hm : m ≤ min a b := h3.2 rfl
        refine ⟨m, by simpa [stepSpec] using h1, ?_, ?_, ?_⟩
        · rcases h2 with h | h
          · rcases min_choice a b with hc | hc
            · exact Or.inl (h.trans hc)
            · exact Or.inr (by simp [h, hc])
          · exact Or.inr (by simp [h])
        · exact ⟨(fun h => by cases h), fun _ => hm.trans (min_le_left a b)⟩
        · intro x hx
          rcases (by simpa using hx : x = b ∨ x ∈ vs.filterMap id) with
            h | h
          · rw [h]
            exact ⟨(fun h' => by cases h'),
              fun _ => hm.trans (min_le_right a b)⟩
          · exact h4 x h

theorem foldl_stepSpec_none {T : Type} [LinearOrder T] (E : ExtremumKind)
    (vs : List (Option T)) :
    (vs.foldl (stepSpec E) none = none ∧ vs.filterMap id = []) ∨
    (∃ m, vs.foldl (stepSpec E) none = some m ∧ m ∈ vs.filterMap id ∧
      ∀ x ∈ vs.filterMap id,
        (E = ExtremumKind.Max → x ≤ m) ∧
        (E = ExtremumKind.Min → m ≤ x)) := by
  induction vs with
  | nil => exact Or.inl ⟨rfl, rfl⟩
  | cons v vs ih =>
    cases v with
    | none => simpa [stepSpec] using ih
    | some b =>
      right
      obtain ⟨m, h1, h2, h3, h4⟩ := foldl_stepSpec_some E vs b
      refine ⟨m, by simpa [stepSpec] using h1, ?_, ?_⟩
      · rcases h2 with h | h
        · simp [h]
        · simp [h]
      · intro x hx
        rcases (by simpa using hx : x = b ∨ x ∈ vs.filterMap id) with
          h | h
        · exact h ▸ ⟨fun hE => h3.1 hE, fun hE => h3.2 hE⟩
        · exact h4 x h

/-- C8: for the MAX/MIN aggregate state over any ordered evaluable type,
starting from the fresh state, every sequence of `update` calls succeeds
(`Ok`), `None` inputs never change the state, and `push_result` appends
exactly the maximum (for `Max`) resp. minimum (for `Min`) of the non-`None`
updated values, or `None` when every updated value was `None`. -/
theorem C8_extremum_aggregate (T : Type) [LinearOrder T] (E : ExtremumKind)
    (vs : List (Option T)) (target : List (Option T)) :
    (∀ st : AggFnStateExtremum T,
      st.update_concrete E none = Except.ok st) ∧
    ∃ st : AggFnStateExtremum T,
      runUpdates E vs = Except.ok st ∧
      st.push_result target = target ++ [st.extremum_value] ∧
      (st.extremum_value = none ↔ vs.filterMap id = []) ∧
      ∀ m, st.extremum_value = some m →
        m ∈ vs.filterMap id ∧
        ∀ x ∈ vs.filterMap id,
          (E = ExtremumKind.Max → x ≤ m) ∧
          (E = ExtremumKind.Min → m ≤ x) := by
  constructor
  · intro st
    cases st with
    | mk acc => rw [update_concrete_eq_stepSpec]; rfl
  · refine ⟨⟨vs.foldl (stepSpec E) none⟩, runUpdates_eq_foldl E vs, rfl,
      ?_, ?_⟩
    · rcases foldl_stepSpec_none E vs with ⟨h1, h2⟩ | ⟨m, h1, h2, _⟩
      · simp [h1, h2]
      · simp only [h1]
        constructor
        · intro h; cases h
        · intro h; rw [h] at h2; cases h2
    · intro m hm
      rcases foldl_stepSpec_none E vs with ⟨h1, _⟩ | ⟨m', h1, h2, h3⟩
      · rw [h1] at hm; cases hm
      · rw [h1] at hm
        cases hm
        exact ⟨h2, h3⟩

/-- Closed witness for C8: MAX over `[Some 3, None, Some 7]` of `Int`
evaluates to the state holding `Some 7`. -/
theorem C8_extremum_aggregate_witness :
    ∃ st : AggFnStateExtremum Int,
      runUpdates ExtremumKind.Max [some 3, none, some 7] = Except.ok st ∧
      st.extremum_value = some 7 := by
  obtain ⟨-, st, h1, -, -, -⟩ :=
    C8_extremum_aggregate Int ExtremumKind.Max [some 3, none, some 7] []
  have hev : runUpdates ExtremumKind.Max [some (3 : Int), none, some 7] =
      Except.ok ⟨some 7⟩ := by rfl
  rw [hev] at h1
  cases h1
  exact ⟨⟨some 7⟩, hev, rfl⟩

theorem qrun_cons (st : GcWorkerState) (e : QEvent) (tr : List QEvent) :
    qrun st (e :: tr) = qrun (qstep st e) tr := rfl

theorem qrun_no_callback (t : Nat) (tr : List QEvent) :
    ∀ st : GcWorkerState, t ∉ st.running → t ∉ st.fired →
      (∀ e ∈ tr, e ≠ QEvent.submit t) →
      t ∉ (qrun st tr).running ∧ t ∉ (qrun st tr).fired := by
  induction tr with
  | nil => exact fun st h1 h2 _ => ⟨h1, h2⟩
  | cons e tr ih =>
    intro st h1 h2 he
    have hstep : t ∉ (qstep st e).running ∧ t ∉ (qstep st e).fired := by
      cases e with
      | submit u =>
        have hu : t ≠ u := by
          intro h
          exact (he _ (List.mem_cons_self _ _)) (by rw [h])
        by_cases hlt : st.running.length < st.maxTasks
        · refine ⟨?_, ?_⟩
          · simp only [qstep, submit, if_pos hlt, List.mem_append,
              List.mem_singleton]
            rintro (h | h)
            · exact h1 h
            · exact hu h
          · simpa only [qstep, submit, if_pos hlt] using h2
        · simp only [qstep, submit, if_neg hlt]
          exact ⟨h1, h2⟩
      | complete u =>
        by_cases hmem : u ∈ st.running
        · have hu : t ≠ u := fun h => h1 (h ▸ hmem)
          refine ⟨?_, ?_⟩
          · simp only [qstep, complete, if_pos hmem]
            exact fun h => h1 (List.mem_of_mem_erase h)
          · simp only [qstep, complete, if_pos hmem, List.mem_append,
              List.mem_singleton]
            rintro (h | h)
            · exact h2 h
            · exact hu h
        · simp only [qstep, complete, if_neg hmem]
          exact ⟨h1, h2⟩
    rw [qrun_cons]
    exact ih _ hstep.1 hstep.2 (fun e' he' => he e' (List.mem_cons_of_mem _ he'))

theorem qrun_invariant (tr : List QEvent) :
    ∀ st : GcWorkerState, st.running.length ≤ st.maxTasks →
      (qrun st tr).running.length ≤ st.maxTasks ∧
      (qrun st tr).maxTasks = st.maxTasks := by
  induction tr with
  | nil => exact fun st h => ⟨h, rfl⟩
  | cons e tr ih =>
    intro st h
    have hstep : (qstep st e).running.length ≤ st.maxTasks ∧
        (qstep st e).maxTasks = st.maxTasks := by
      cases e with
      | submit u =>
        by_cases hlt : st.running.length < st.maxTasks
        · refine ⟨?_, ?_⟩
          · simp only [qstep, submit, if_pos hlt, List.length_append,
              List.length_singleton]
            exact hlt
          · simp only [qstep, submit, if_pos hlt]
        · simp only [qstep, submit, if_neg hlt]
          exact ⟨h, trivial⟩
      | complete u =>
        by_cases hmem : u ∈ st.running
        · refine ⟨?_, ?_⟩
          · simp only [qstep, complete, if_pos hmem]
            exact le_trans (List.erase_sublist u st.running).length_le h
          · simp only [qstep, complete, if_pos hmem]
        · simp only [qstep, complete, if_neg hmem]
          exact ⟨h, trivial⟩
    rw [qrun_cons]
    obtain ⟨ih1, ih2⟩ := ih (qstep st e) (hstep.2 ▸ hstep.1)
    exact ⟨le_trans ih1 (le_of_eq hstep.2), by rw [ih2, hstep.2]⟩

/-- C2: a `submit` issued while all execution slots are occupied fails
synchronously with `TooBusy` and performs no side effect: the queue state
is exactly unchanged, every future admission decision is as if the
rejected submit had never happened, and the rejected task's completion
callback never fires. -/
theorem C2_reject_no_side_effect (st : GcWorkerState) (t : Nat)
    (hfull : st.maxTasks ≤ st.running.length) :
    (submit st t).2 = SubmitResult.tooBusy ∧
    (submit st t).1 = st ∧
    (∀ tr : List QEvent, qrun (submit st t).1 tr = qrun st tr) ∧
    (∀ tr : List QEvent, t ∉ st.running → t ∉ st.fired →
      (∀ e ∈ tr, e ≠ QEvent.submit t) →
      t ∉ (qrun (submit st t).1 tr).fired) := by
  have hnot : ¬ st.running.length < st.maxTasks := not_lt.mpr hfull
  have hst : (submit st t).1 = st := by simp [submit, hnot]
  refine ⟨by simp [submit, hnot], hst, fun tr => by rw [hst], ?_⟩
  intro tr h1 h2 he
  rw [hst]
  exact (qrun_no_callback t tr st h1 h2 he).2

/-- Closed witness for C2 on a full one-slot queue. -/
theorem C2_reject_no_side_effect_witness :
    (submit ⟨1, [0], []⟩ 5).2 = SubmitResult.tooBusy ∧
    (submit ⟨1, [0], []⟩ 5).1 = (⟨1, [0], []⟩ : GcWorkerState) :=
  ⟨(C2_reject_no_side_effect ⟨1, [0], []⟩ 5 (by decide)).1,
   (C2_reject_no_side_effect ⟨1, [0], []⟩ 5 (by decide)).2.1⟩

/-- C3: along every execution history the number of tasks occupying
execution slots never exceeds the configured bound N; when the slots are
full any further submit fails with `TooBusy`, and once any occupying task
completes (releasing its slot) a newly submitted task succeeds. -/
theorem C3_admission_bound (st0 : GcWorkerState) (tr : List QEvent)
    (h0 : st0.running.length ≤ st0.maxTasks) :
    (qrun st0 tr).running.length ≤ st0.maxTasks ∧
    ((qrun st0 tr).running.length = st0.maxTasks →
      ∀ t, (submit (qrun st0 tr) t).2 = SubmitResult.tooBusy) ∧
    (∀ t, t ∈ (qrun st0 tr).running →
      ∀ u, (submit (complete (qrun st0 tr) t) u).2 =
        SubmitResult.accepted) := by
  obtain ⟨hlen, hmax⟩ := qrun_invariant tr st0 h0
  refine ⟨hlen, ?_, ?_⟩
  · intro hfull t
    have hnot : ¬ (qrun st0 tr).running.length < (qrun st0 tr).maxTasks := by
      rw [hmax, hfull]
      exact lt_irrefl _
    simp [submit, hnot]
  · intro t ht u
    have hpos : 0 < (qrun st0 tr).running.length :=
      List.length_pos_of_mem ht
    have herase : ((qrun st0 tr).running.erase t).length <
        (qrun st0 tr).maxTasks := by
      rw [hmax, List.length_erase_of_mem ht]
      exact lt_of_lt_of_le (Nat.sub_lt hpos one_pos) hlen
    simp only [complete, if_pos ht, submit]
    rw [if_pos herase]

/-- Closed witness for C3 on a one-slot queue after one submit. -/
theorem C3_admission_bound_witness :
    (qrun ⟨1, [], []⟩ [QEvent.submit 0]).running.length ≤ 1 :=
  (C3_admission_bound ⟨1, [], []⟩ [QEvent.submit 0] (by decide)).1

theorem applyStep_ok_clean (st : ObserverNode) (e : ApplyEvent) :
    ∃ st1, applyStep st e = Except.ok st1 ∧
      (st.clean = false → st1.clean = false) := by
  cases e with
  | persist l => exact ⟨persistStep st l, rfl, fun h => h⟩
  | deliverOk =>
    refine ⟨deliverStep st, rfl, fun h => ?_⟩
    rcases hp : st.pending with _ | ⟨l, rest⟩
    · simp [deliverStep, hp, h]
    · rcases hm : st.max_ts with _ | ts
      · simp [deliverStep, hp, hm, h]
      · by_cases hts : l.start_ts ≤ ts <;>
          simp [deliverStep, hp, hm, hts, h]
  | deliverFail =>
    rcases hp : st.pending with _ | ⟨l, rest⟩
    · exact ⟨st, by simp [applyStep, deliverFailStep, hp], fun h => h⟩
    · rcases hm : st.max_ts with _ | ts
      · exact ⟨{ st with pending := rest },
          by simp [applyStep, deliverFailStep, hp, hm], fun h => h⟩
      · by_cases hts : l.start_ts ≤ ts
        · exact ⟨{ st with pending := rest, clean := false },
            by simp [applyStep, deliverFailStep, hp, hm, hts],
            fun _ => rfl⟩
        · exact ⟨{ st with pending := rest },
            by simp [applyStep, deliverFailStep, hp, hm, hts], fun h => h⟩

theorem applyRun_ok_clean (tr : List ApplyEvent) :
    ∀ st : ObserverNode, ∃ st', applyRun st tr = Except.ok st' ∧
      (st.clean = false → st'.clean = false) := by
  induction tr with
  | nil => exact fun st => ⟨st, rfl, fun h => h⟩
  | cons e tr ih =>
    intro st
    obtain ⟨st1, he, hc1⟩ := applyStep_ok_clean st e
    obtain ⟨st', hrun, hc'⟩ := ih st1
    refine ⟨st', ?_, fun h => hc' (hc1 h)⟩
    rw [applyRun, List.foldlM_cons, he]
    exact hrun

theorem applyStep_preserves (ts : Nat) (st : ObserverNode) (e : ApplyEvent)
    (h : ObsInv ts st) :
    ∃ st1, applyStep st e = Except.ok st1 ∧ ObsInv ts st1 := by
  obtain ⟨h1, h2, h3⟩ := h
  cases e with
  | persist l =>
    refine ⟨persistStep st l, rfl, h1, ?_, ?_⟩
    · intro x hx
      obtain ⟨hd, hts⟩ := h2 x hx
      exact ⟨List.mem_append_left _ hd, hts⟩
    · intro x hx
      simp only [persistStep, List.mem_append, List.mem_singleton] at hx ⊢
      rcases hx with hx | hx
      · exact Or.inl (h3 x hx)
      · exact Or.inr hx
  | deliverOk =>
    rcases hp : st.pending with _ | ⟨l, rest⟩
    · have hd : deliverStep st = st := by simp [deliverStep, hp]
      exact ⟨deliverStep st, rfl, by rw [hd]; exact ⟨h1, h2, h3⟩⟩
    · rw [hp] at h3
      by_cases hts : l.start_ts ≤ ts
      · have hd : deliverStep st =
            { st with pending := rest,
                      obsLocks := st.obsLocks ++ [l] } := by
          simp [deliverStep, hp, h1, hts]
        refine ⟨deliverStep st, rfl, ?_⟩
        rw [hd]
        refine ⟨h1, ?_, ?_⟩
        · intro x hx
          rcases List.mem_append.mp hx with hx | hx
          · exact h2 x hx
          · rw [List.mem_singleton.mp hx]
            exact ⟨h3 l (List.mem_cons_self l rest), hts⟩
        · intro x hx
          exact h3 x (List.mem_cons_of_mem l hx)
      · have hd : deliverStep st = { st with pending := rest } := by
          simp [deliverStep, hp, h1, hts]
        refine ⟨deliverStep st, rfl, ?_⟩
        rw [hd]
        exact ⟨h1, h2, fun x hx => h3 x (List.mem_cons_of_mem l hx)⟩
  | deliverFail =>
    rcases hp : st.pending with _ | ⟨l, rest⟩
    · refine ⟨st, by simp [applyStep, deliverFailStep, hp], h1, h2, h3⟩
    · rw [hp] at h3
      have hrest : ∀ x ∈ rest, x ∈ st.db :=
        fun x hx => h3 x (List.mem_cons_of_mem l hx)
      by_cases hts : l.start_ts ≤ ts
      · exact ⟨{ st with pending := rest, clean := false },
          by simp [applyStep, deliverFailStep, hp, h1, hts],
          h1, h2, hrest⟩
      · exact ⟨{ st with pending := rest },
          by simp [applyStep, deliverFailStep, hp, h1, hts],
          h1, h2, hrest⟩

theorem applyRun_preserves (ts : Nat) (tr : List ApplyEvent) :
    ∀ st : ObserverNode, ObsInv ts st →
      ∃ st', applyRun st tr = Except.ok st' ∧ ObsInv ts st' := by
  induction tr with
  | nil => exact fun st h => ⟨st, rfl, h⟩
  | cons e tr ih =>
    intro st h
    obtain ⟨st1, he, h1⟩ := applyStep_preserves ts st e h
    obtain ⟨st', hrun, h'⟩ := ih st1 h1
    refine ⟨st', ?_, h'⟩
    rw [applyRun, List.foldlM_cons, he]
    exact hrun

/-- C4: the notification hook runs strictly after the corresponding lock
write is durably persisted: a `persist` step appends the write to the
durable lock family and enqueues its notification without touching the
accumulator, and at every point of any apply-path history every lock in
the Active observer's accumulated set is already durably visible to a
physical scan of the local lock family. -/
theorem C4_notify_after_apply (st0 : ObserverNode) (ts : Nat)
    (tr : List ApplyEvent)
    (hreg : st0.max_ts = some ts)
    (hobs : ∀ l ∈ st0.obsLocks, l ∈ st0.db ∧ l.start_ts ≤ ts)
    (hpend : ∀ l ∈ st0.pending, l ∈ st0.db) :
    ∃ st', applyRun st0 tr = Except.ok st' ∧
      (∀ l ∈ st'.obsLocks, l ∈ st'.db ∧ l ∈ physicalScanAll st'.db ts) ∧
      (∀ l : LockRecord,
        l ∈ (persistStep st' l).db ∧
        l ∈ (persistStep st' l).pending ∧
        (persistStep st' l).obsLocks = st'.obsLocks) := by
  obtain ⟨st', hrun, h1, h2, h3⟩ :=
    applyRun_preserves ts tr st0 ⟨hreg, hobs, hpend⟩
  refine ⟨st', hrun, ?_, ?_⟩
  · intro l hl
    obtain ⟨hd, hts⟩ := h2 l hl
    refine ⟨hd, ?_⟩
    simp only [physicalScanAll, List.mem_filter, decide_eq_true_eq]
    exact ⟨hd, hts⟩
  · intro l
    refine ⟨?_, ?_, rfl⟩
    · simp [persistStep]
    · simp [persistStep]

/-- Closed witness for C4: a freshly registered observer, one persisted
lock write and its delivery. -/
theorem C4_notify_after_apply_witness :
    ∃ st', applyRun ⟨[], some 100, [], true, []⟩
        [ApplyEvent.persist ⟨1, 50, 1⟩, ApplyEvent.deliverOk] =
        Except.ok st' ∧
      (∀ l ∈ st'.obsLocks, l ∈ st'.db ∧
        l ∈ physicalScanAll st'.db 100) ∧
      (∀ l : LockRecord,
        l ∈ (persistStep st' l).db ∧
        l ∈ (persistStep st' l).pending ∧
        (persistStep st' l).obsLocks = st'.obsLocks) :=
  C4_notify_after_apply ⟨[], some 100, [], true, []⟩ 100
    [ApplyEvent.persist ⟨1, 50, 1⟩, ApplyEvent.deliverOk] rfl
    (by simp) (by simp)

/-- C5: when delivering a notification fails, the write path does not
fail and no error is surfaced: the observer flips `clean` to false and
drops that notification (the accumulator and the durable key space are
untouched), a subsequent `check(max_ts)` returns the accumulated set
together with `clean = false`, and `clean` stays false for the rest of
the round. -/
theorem C5_observer_send_error (st : ObserverNode) (ts : Nat)
    (l : LockRecord) (rest : List LockRecord)
    (hreg : st.max_ts = some ts)
    (hpend : st.pending = l :: rest)
    (hts : l.start_ts ≤ ts) :
    ∃ st', applyStep st ApplyEvent.deliverFail = Except.ok st' ∧
      st'.clean = false ∧
      st'.obsLocks = st.obsLocks ∧
      st'.db = st.db ∧
      checkLockObserver st' ts = (st.obsLocks, false) ∧
      ∀ tr : List ApplyEvent, ∃ st'', applyRun st' tr = Except.ok st'' ∧
        st''.clean = false := by
  refine ⟨{ st with pending := rest, clean := false },
    by simp [applyStep, deliverFailStep, hpend, hreg, hts],
    rfl, rfl, rfl, by simp [checkLockObserver, hreg], ?_⟩
  intro tr
  obtain ⟨st'', hrun, hc⟩ :=
    applyRun_ok_clean tr { st with pending := rest, clean := false }
  exact ⟨st'', hrun, hc rfl⟩

/-- Closed witness for C5: one pending relevant notification whose
delivery fails. -/
theorem C5_observer_send_error_witness :
    ∃ st', applyStep ⟨[⟨1, 50, 1⟩], some 100, [], true, [⟨1, 50, 1⟩]⟩
        ApplyEvent.deliverFail = Except.ok st' ∧
      st'.clean = false ∧
      st'.obsLocks = [] ∧
      st'.db = [⟨1, 50, 1⟩] ∧
      checkLockObserver st' 100 = ([], false) ∧
      ∀ tr : List ApplyEvent, ∃ st'', applyRun st' tr = Except.ok st'' ∧
        st''.clean = false :=
  C5_observer_send_error ⟨[⟨1, 50, 1⟩], some 100, [], true, [⟨1, 50, 1⟩]⟩
    100 ⟨1, 50, 1⟩ [] rfl rfl (by decide)

theorem newestLE_none (sp : Nat) : ∀ vs : List Nat,
    newestLE sp vs = none → ∀ v ∈ vs, ¬ v ≤ sp := by
  intro vs
  induction vs with
  | nil => intro _ v hv; cases hv
  | cons v rest ih =>
    intro h x hx
    cases hr : newestLE sp rest with
    | none =>
      simp only [newestLE, hr] at h
      by_cases hv : v ≤ sp
      · rw [if_pos hv] at h; cases h
      · rw [if_neg hv] at h
        rcases List.mem_cons.mp hx with he | hxr
        · rw [he]; exact hv
        · exact ih hr x hxr
    | some m' =>
      simp only [newestLE, hr] at h
      by_cases hv : v ≤ sp
      · rw [if_pos hv] at h; cases h
      · rw [if_neg hv] at h; cases h

theorem newestLE_mem (sp : Nat) : ∀ (vs : List Nat) (m : Nat),
    newestLE sp vs = some m → m ∈ vs ∧ m ≤ sp := by
  intro vs
  induction vs with
  | nil => intro m h; cases h
  | cons v rest ih =>
    intro m h
    cases hr : newestLE sp rest with
    | none =>
      simp only [newestLE, hr] at h
      by_cases hv : v ≤ sp
      · rw [if_pos hv] at h
        cases h
        exact ⟨List.mem_cons_self _ _, hv⟩
      · rw [if_neg hv] at h; cases h
    | some m' =>
      simp only [newestLE, hr] at h
      obtain ⟨hm', hsp'⟩ := ih m' hr
      by_cases hv : v ≤ sp
      · rw [if_pos hv] at h
        cases h
        constructor
        · rcases max_choice v m' with hc | hc
          · rw [hc]; exact List.mem_cons_self _ _
          · rw [hc]; exact List.mem_cons_of_mem _ hm'
        · exact max_le hv hsp'
      · rw [if_neg hv] at h
        cases h
        exact ⟨List.mem_cons_of_mem _ hm', hsp'⟩

theorem newestLE_isMax (sp : Nat) : ∀ (vs : List Nat) (m : Nat),
    newestLE sp vs = some m → ∀ x ∈ vs, x ≤ sp → x ≤ m := by
  intro vs
  induction vs with
  | nil => intro m h; cases h
  | cons v rest ih =>
    intro m h x hx hxsp
    cases hr : newestLE sp rest with
    | none =>
      simp only [newestLE, hr] at h
      by_cases hv : v ≤ sp
      · rw [if_pos hv] at h
        cases h
        rcases List.mem_cons.mp hx with he | hxr
        · exact he.le
        · exact absurd hxsp (newestLE_none sp rest hr x hxr)
      · rw [if_neg hv] at h; cases h
    | some m' =>
      simp only [newestLE, hr] at h
      by_cases hv : v ≤ sp
      · rw [if_pos hv] at h
        cases h
        rcases List.mem_cons.mp hx with he | hxr
        · exact le_trans he.le (le_max_left _ _)
        · exact le_trans (ih m' hr x hxr hxsp) (le_max_right _ _)
      · rw [if_neg hv] at h
        cases h
        rcases List.mem_cons.mp hx with he | hxr
        · rw [he] at hxsp; exact absurd hxsp hv
        · exact ih _ hr x hxr hxsp

theorem newestLE_eq_of (sp : Nat) : ∀ (vs : List Nat) (m : Nat),
    m ∈ vs → m ≤ sp → (∀ x ∈ vs, x ≤ sp → x ≤ m) →
    newestLE sp vs = some m := by
  intro vs
  induction vs with
  | nil => intro m hm; cases hm
  | cons v rest ih =>
    intro m hm hmsp hmax
    rcases List.mem_cons.mp hm with hmv | hmr
    · subst hmv
      cases hr : newestLE sp rest with
      | none => simp only [newestLE, hr]; rw [if_pos hmsp]
      | some m' =>
        obtain ⟨hm'mem, hm'sp⟩ := newestLE_mem sp rest m' hr
        have hle : m' ≤ m :=
          hmax m' (List.mem_cons_of_mem _ hm'mem) hm'sp
        simp only [newestLE, hr]
        rw [if_pos hmsp, max_eq_left hle]
    · have hrec : newestLE sp rest = some m :=
        ih m hmr hmsp
          (fun x hx hxsp => hmax x (List.mem_cons_of_mem _ hx) hxsp)
      simp only [newestLE, hrec]
      by_cases hv : v ≤ sp
      · rw [if_pos hv,
          max_eq_right (hmax v (List.mem_cons_self _ _) hv)]
      · rw [if_neg hv]

theorem mem_gcKey (sp : Nat) (vs : List Nat) (v : Nat) :
    v ∈ gcKey sp vs ↔
      v ∈ vs ∧ (sp < v ∨ newestLE sp vs = some v) := by
  simp [gcKey, gcKeep, List.mem_filter, Bool.or_eq_true, decide_eq_true_eq]

theorem gcKey_idem (sp sp' : Nat) (h : sp' ≤ sp) (vs : List Nat) :
    gcKey sp' (gcKey sp vs) = gcKey sp vs := by
  apply List.filter_eq_self.mpr
  intro u hu
  have hu' := (mem_gcKey sp vs u).mp hu
  obtain ⟨huvs, hdisj⟩ := hu'
  rcases hdisj with hlt | hnm
  · simp [gcKeep, lt_of_le_of_lt h hlt]
  · by_cases hlt' : sp' < u
    · simp [gcKeep, hlt']
    · have hu_le : u ≤ sp' := not_lt.mp hlt'
      have hmax : ∀ x ∈ gcKey sp vs, x ≤ sp' → x ≤ u := by
        intro x hx hx'
        have hx2 := (mem_gcKey sp vs x).mp hx
        rcases hx2.2 with hxlt | hxnm
        · exact absurd (lt_of_le_of_lt h hxlt) (not_lt.mpr hx')
        · rw [hnm] at hxnm
          exact le_of_eq (Option.some.inj hxnm).symm
      have hne : newestLE sp' (gcKey sp vs) = some u :=
        newestLE_eq_of sp' (gcKey sp vs) u hu hu_le hmax
      simp [gcKeep, hne]

theorem gcLocks_idem (sp sp' : Nat) (h : sp' ≤ sp)
    (locks : List (LockRecord × Bool)) :
    ((locks.filter
        (fun lr => !(lr.2 && decide (lr.1.start_ts < sp)))).filter
      (fun lr => !(lr.2 && decide (lr.1.start_ts < sp')))) =
    locks.filter (fun lr => !(lr.2 && decide (lr.1.start_ts < sp))) := by
  apply List.filter_eq_self.mpr
  intro lr hlr
  have h2 := (List.mem_filter.mp hlr).2
  by_cases hr : lr.2 = true
  · simp only [hr, Bool.true_and, Bool.not_eq_true',
      decide_eq_false_iff_not] at h2
    simp only [hr, Bool.true_and, Bool.not_eq_true',
      decide_eq_false_iff_not]
    exact fun hlt => h2 (lt_of_lt_of_le hlt h)
  · have hr' : lr.2 = false := by
      revert hr; cases lr.2 <;> simp
    simp [hr']

/-- C6: after `Gc{region, safe_point}`, no LockRecord with start
timestamp ≥ safe_point has been deleted, and for every key of the region
the newest committed version ≤ safe_point survives. -/
theorem C6_reclamation_safety (sp : Nat) (rd : RegionData) :
    (∀ lr ∈ rd.locks, sp ≤ lr.1.start_ts →
      lr ∈ (gcRegion sp rd).locks) ∧
    (∀ k vs, (k, vs) ∈ rd.entries →
      (k, gcKey sp vs) ∈ (gcRegion sp rd).entries ∧
      ∀ m, newestLE sp vs = some m → m ∈ gcKey sp vs) := by
  constructor
  · intro lr hlr hsp
    simp only [gcRegion, List.mem_filter]
    refine ⟨hlr, ?_⟩
    have hnot : ¬ lr.1.start_ts < sp := not_lt.mpr hsp
    simp [hnot]
  · intro k vs hkv
    constructor
    · simp only [gcRegion]
      exact List.mem_map.mpr ⟨(k, vs), hkv, rfl⟩
    · intro m hm
      obtain ⟨hmem, -⟩ := newestLE_mem sp vs m hm
      exact (mem_gcKey sp vs m).mpr ⟨hmem, Or.inr hm⟩

/-- Closed witness for C6: a lock above the safe point survives and the
newest committed version ≤ safe_point survives. -/
theorem C6_reclamation_safety_witness :
    (⟨⟨1, 20, 1⟩, true⟩ : LockRecord × Bool) ∈
      (gcRegion 10 ⟨[(1, [3, 7, 12])], [⟨⟨1, 20, 1⟩, true⟩]⟩).locks ∧
    (7 : Nat) ∈ gcKey 10 [3, 7, 12] :=
  ⟨(C6_reclamation_safety 10
      ⟨[(1, [3, 7, 12])], [⟨⟨1, 20, 1⟩, true⟩]⟩).1
      ⟨⟨1, 20, 1⟩, true⟩ (by decide) (by decide),
   ((C6_reclamation_safety 10
      ⟨[(1, [3, 7, 12])], [⟨⟨1, 20, 1⟩, true⟩]⟩).2 1 [3, 7, 12]
      (by decide)).2 7 (by decide)⟩

/-- C7: `Gc` is idempotent: running it twice with the same safe_point
yields the same key-space state as running it once, and re-running with
the same or a lower safe_point is a no-op on already-reclaimed data. -/
theorem C7_gc_idempotent (sp sp' : Nat) (rd : RegionData)
    (h : sp' ≤ sp) :
    gcRegion sp (gcRegion sp rd) = gcRegion sp rd ∧
    gcRegion sp' (gcRegion sp rd) = gcRegion sp rd := by
  have main : ∀ q, q ≤ sp →
      gcRegion q (gcRegion sp rd) = gcRegion sp rd := by
    intro q hq
    simp only [gcRegion, RegionData.mk.injEq]
    constructor
    · rw [List.map_map]
      apply List.map_congr_left
      intro e _
      simp only [Function.comp_apply]
      rw [gcKey_idem sp q hq]
    · exact gcLocks_idem sp q hq rd.locks
  exact ⟨main sp le_rfl, main sp' h⟩

/-- Closed witness for C7 at a concrete region and safe points. -/
theorem C7_gc_idempotent_witness :
    gcRegion 5 (gcRegion 10
        ⟨[(1, [3, 7, 12])], [⟨⟨1, 2, 1⟩, true⟩]⟩) =
      gcRegion 10 ⟨[(1, [3, 7, 12])], [⟨⟨1, 2, 1⟩, true⟩]⟩ :=
  (C7_gc_idempotent 10 5
    ⟨[(1, [3, 7, 12])], [⟨⟨1, 2, 1⟩, true⟩]⟩ (by decide)).2

theorem collected_step {k : Nat} (ts : Nat) (st : Fin k → StoreState)
    (e : RoundEvent k) (l : LockRecord) (h : collectedLock st l) :
    collectedLock (roundStep ts st e) l := by
  obtain ⟨n, hn⟩ := h
  cases e with
  | applyLock n' l' =>
    by_cases ha : (st n').alive
    · simp only [roundStep, if_pos ha]
      rcases eq_or_ne n n' with rfl | hne
      · refine ⟨n, ?_⟩
        rw [Function.update_same]
        rcases hn with hobs | ⟨r, hr, hlr⟩
        · left
          show l ∈ (if l'.start_ts ≤ ts then (st n).obs ++ [l']
            else (st n).obs)
          by_cases hlts : l'.start_ts ≤ ts
          · rw [if_pos hlts]
            exact List.mem_append_left _ hobs
          · rw [if_neg hlts]
            exact hobs
        · exact Or.inr ⟨r, hr, hlr⟩
      · exact ⟨n, by rw [Function.update_noteq hne]; exact hn⟩
    · simp only [roundStep, if_neg ha]
      exact ⟨n, hn⟩
  | scanStore n' =>
    cases hs : (st n').scanned with
    | some r' =>
      simp only [roundStep, hs]
      exact ⟨n, hn⟩
    | none =>
      simp only [roundStep, hs]
      rcases eq_or_ne n n' with rfl | hne
      · rcases hn with hobs | ⟨r, hr, hlr⟩
        · exact ⟨n, Or.inl (by rw [Function.update_same]; exact hobs)⟩
        · rw [hs] at hr
          cases hr
      · exact ⟨n, by rw [Function.update_noteq hne]; exact hn⟩
  | removePeer n' m =>
    by_cases hg : n' ≠ m ∧ (st m).alive = true ∧
        ∀ x ∈ (st n').applied, x ∈ (st m).applied
    · simp only [roundStep]
      rw [if_pos hg]
      rcases eq_or_ne n n' with rfl | hne
      · exact ⟨n, by rw [Function.update_same]; exact hn⟩
      · exact ⟨n, by rw [Function.update_noteq hne]; exact hn⟩
    · simp only [roundStep]
      rw [if_neg hg]
      exact ⟨n, hn⟩

theorem roundStep_inv {k : Nat} (ts : Nat) (st : Fin k → StoreState)
    (e : RoundEvent k) (h : RoundInv ts st) :
    RoundInv ts (roundStep ts st e) := by
  obtain ⟨h1, h2⟩ := h
  cases e with
  | applyLock n l =>
    by_cases ha : (st n).alive
    · simp only [roundStep, if_pos ha]
      constructor
      · intro n' hn'
        rcases eq_or_ne n' n with rfl | hne
        · rw [Function.update_same] at hn' ⊢
          have hfalse : (st n').alive = false := hn'
          rw [ha] at hfalse
          cases hfalse
        · rw [Function.update_noteq hne] at hn' ⊢
          exact h1 n' hn'
      · intro n' l' hl' hts'
        rcases eq_or_ne n' n with rfl | hne
        · rw [Function.update_same] at hl' ⊢
          have hl'' : l' ∈ (st n').applied ++ [l] := hl'
          rcases List.mem_append.mp hl'' with hold | hnew
          · rcases h2 n' l' hold hts' with hobs | hscan
            · left
              show l' ∈ (if l.start_ts ≤ ts then (st n').obs ++ [l]
                else (st n').obs)
              by_cases hlts : l.start_ts ≤ ts
              · rw [if_pos hlts]
                exact List.mem_append_left _ hobs
              · rw [if_neg hlts]
                exact hobs
            · right
              intro r hr
              exact hscan r hr
          · left
            have hl3 : l' = l := List.mem_singleton.mp hnew
            show l' ∈ (if l.start_ts ≤ ts then (st n').obs ++ [l]
              else (st n').obs)
            rw [if_pos (hl3 ▸ hts')]
            rw [hl3]
            exact List.mem_append_right _ (List.mem_singleton_self l)
        · rw [Function.update_noteq hne] at hl' ⊢
          exact h2 n' l' hl' hts'
    · simp only [roundStep, if_neg ha]
      exact ⟨h1, h2⟩
  | scanStore n =>
    cases hs : (st n).scanned with
    | some r' =>
      simp only [roundStep, hs]
      exact ⟨h1, h2⟩
    | none =>
      simp only [roundStep, hs]
      constructor
      · intro n' hn'
        rcases eq_or_ne n' n with rfl | hne
        · rw [Function.update_same] at hn' ⊢
          exact h1 n' hn'
        · rw [Function.update_noteq hne] at hn' ⊢
          exact h1 n' hn'
      · intro n' l' hl' hts'
        rcases eq_or_ne n' n with rfl | hne
        · rw [Function.update_same] at hl' ⊢
          right
          intro r hr
          have hr' : some (physicalScanAll (st n').applied ts) = some r :=
            hr
          have hl'' : l' ∈ (st n').applied := hl'
          rw [← Option.some.inj hr']
          simp only [physicalScanAll, List.mem_filter, decide_eq_true_eq]
          exact ⟨hl'', hts'⟩
        · rw [Function.update_noteq hne] at hl' ⊢
          exact h2 n' l' hl' hts'
  | removePeer n m =>
    by_cases hg : n ≠ m ∧ (st m).alive = true ∧
        ∀ x ∈ (st n).applied, x ∈ (st m).applied
    · simp only [roundStep]
      rw [if_pos hg]
      constructor
      · intro n' hn'
        rcases eq_or_ne n' n with rfl | hne
        · rw [Function.update_same]
        · rw [Function.update_noteq hne] at hn' ⊢
          exact h1 n' hn'
      · intro n' l' hl' hts'
        rcases eq_or_ne n' n with rfl | hne
        · rw [Function.update_same] at hl'
          have hl'' : l' ∈ ([] : List LockRecord) := hl'
          cases hl''
        · rw [Function.update_noteq hne] at hl' ⊢
          exact h2 n' l' hl' hts'
    · simp only [roundStep]
      rw [if_neg hg]
      exact ⟨h1, h2⟩

theorem tracked_step {k : Nat} (ts : Nat) (st : Fin k → StoreState)
    (e : RoundEvent k) (l : LockRecord) (hts : l.start_ts ≤ ts)
    (hinv : RoundInv ts st) (h : trackedLock st l) :
    trackedLock (roundStep ts st e) l := by
  rcases h with hcol | ⟨n, hap, hdisj⟩
  · exact Or.inl (collected_step ts st e l hcol)
  cases e with
  | applyLock n' l' =>
    by_cases ha : (st n').alive
    · simp only [roundStep, if_pos ha]
      rcases eq_or_ne n n' with rfl | hne
      · right
        refine ⟨n, ?_, ?_⟩
        · rw [Function.update_same]
          exact List.mem_append_left _ hap
        · rw [Function.update_same]
          rcases hdisj with hsc | hobs
          · exact Or.inl hsc
          · right
            show l ∈ (if l'.start_ts ≤ ts then (st n).obs ++ [l']
              else (st n).obs)
            by_cases hlts : l'.start_ts ≤ ts
            · rw [if_pos hlts]
              exact List.mem_append_left _ hobs
            · rw [if_neg hlts]
              exact hobs
      · right
        exact ⟨n, by rw [Function.update_noteq hne]; exact hap,
          by rw [Function.update_noteq hne]; exact hdisj⟩
    · simp only [roundStep, if_neg ha]
      exact Or.inr ⟨n, hap, hdisj⟩
  | scanStore n' =>
    cases hs : (st n').scanned with
    | some r' =>
      simp only [roundStep, hs]
      exact Or.inr ⟨n, hap, hdisj⟩
    | none =>
      simp only [roundStep, hs]
      rcases eq_or_ne n n' with rfl | hne
      · left
        refine ⟨n, Or.inr ⟨physicalScanAll (st n).applied ts, ?_, ?_⟩⟩
        · rw [Function.update_same]
        · simp only [physicalScanAll, List.mem_filter, decide_eq_true_eq]
          exact ⟨hap, hts⟩
      · right
        exact ⟨n, by rw [Function.update_noteq hne]; exact hap,
          by rw [Function.update_noteq hne]; exact hdisj⟩
  | removePeer n' m =>
    by_cases hg : n' ≠ m ∧ (st m).alive = true ∧
        ∀ x ∈ (st n').applied, x ∈ (st m).applied
    · obtain ⟨hnm, halive, hsub⟩ := hg
      simp only [roundStep]
      rw [if_pos ⟨hnm, halive, hsub⟩]
      rcases eq_or_ne n n' with rfl | hne
      · rcases hdisj with hsc | hobs
        · have hm : l ∈ (st m).applied := hsub l hap
          rcases hinv.2 m l hm hts with hobsm | hscanm
          · left
            refine ⟨m, Or.inl ?_⟩
            rw [Function.update_noteq (Ne.symm hnm)]
            exact hobsm
          · cases hsm : (st m).scanned with
            | none =>
              right
              refine ⟨m, ?_, ?_⟩
              · rw [Function.update_noteq (Ne.symm hnm)]
                exact hm
              · rw [Function.update_noteq (Ne.symm hnm)]
                exact Or.inl hsm
            | some r =>
              left
              refine ⟨m, Or.inr ⟨r, ?_, hscanm r hsm⟩⟩
              rw [Function.update_noteq (Ne.symm hnm)]
              exact hsm
        · left
          refine ⟨n, Or.inl ?_⟩
          rw [Function.update_same]
          exact hobs
      · right
        exact ⟨n, by rw [Function.update_noteq hne]; exact hap,
          by rw [Function.update_noteq hne]; exact hdisj⟩
    · simp only [roundStep]
      rw [if_neg hg]
      exact Or.inr ⟨n, hap, hdisj⟩

theorem runRound_inv {k : Nat} (ts : Nat) (tr : List (RoundEvent k)) :
    ∀ st : Fin k → StoreState, RoundInv ts st →
      RoundInv ts (runRound ts st tr) := by
  induction tr with
  | nil => exact fun st h => h
  | cons e tr ih =>
    intro st h
    exact ih (roundStep ts st e) (roundStep_inv ts st e h)

theorem runRound_tracked {k : Nat} (ts : Nat) (l : LockRecord)
    (hts : l.start_ts ≤ ts) (tr : List (RoundEvent k)) :
    ∀ st : Fin k → StoreState, RoundInv ts st → trackedLock st l →
      trackedLock (runRound ts st tr) l := by
  induction tr with
  | nil => exact fun st _ h => h
  | cons e tr ih =>
    intro st hinv h
    exact ih (roundStep ts st e) (roundStep_inv ts st e hinv)
      (tracked_step ts st e l hts hinv h)

/-- C1: no silent loss across any interleaving of the green-GC round.
Starting from the completion of `RegisterLockObserver{max_ts}` on all
stores, for every interleaving of concurrent lock-applying writes, peer
removals (gated by the replication-layer guarantee that the surviving
store has applied everything the removed peer applied) and the
coordinator's per-store physical scans, every LockRecord with start
timestamp ≤ max_ts that exists in any store's durable lock family at any
instant of the round appears, once every store has been scanned and the
observers are read back, in the union of the physical scan results and
the observer-accumulated sets. -/
theorem C1_no_silent_lock_loss {k : Nat} (ts : Nat)
    (init : Fin k → StoreState) (tr pre : List (RoundEvent k))
    (hinit : ∀ n, (init n).obs = [] ∧ (init n).scanned = none ∧
      (init n).alive = true)
    (hpre : pre <+: tr)
    (hdone : ∀ n, (runRound ts init tr n).scanned ≠ none)
    (l : LockRecord) (hts : l.start_ts ≤ ts)
    (n : Fin k) (hex : l ∈ (runRound ts init pre n).applied) :
    collectedLock (runRound ts init tr) l := by
  have hinv0 : RoundInv ts init := by
    constructor
    · intro n' hn'
      rw [(hinit n').2.2] at hn'
      cases hn'
    · intro n' l' _ _
      right
      intro r hr
      rw [(hinit n').2.1] at hr
      cases hr
  obtain ⟨suf, hsuf⟩ := hpre
  have hinvPre : RoundInv ts (runRound ts init pre) :=
    runRound_inv ts pre init hinv0
  have htr : runRound ts init tr =
      runRound ts (runRound ts init pre) suf := by
    rw [← hsuf, runRound, runRound, runRound, List.foldl_append]
  have htracked : trackedLock (runRound ts init pre) l := by
    rcases hinvPre.2 n l hex hts with hobs | hscan
    · exact Or.inr ⟨n, hex, Or.inr hobs⟩
    · cases hsn : ((runRound ts init pre) n).scanned with
      | none => exact Or.inr ⟨n, hex, Or.inl hsn⟩
      | some r => exact Or.inl ⟨n, Or.inr ⟨r, hsn, hscan r hsn⟩⟩
  have hfinal : trackedLock (runRound ts init tr) l := by
    rw [htr]
    exact runRound_tracked ts l hts suf (runRound ts init pre)
      hinvPre htracked
  rcases hfinal with hcol | ⟨n0, _, hdisj⟩
  · exact hcol
  rcases hdisj with hsc | hobs
  · exact absurd hsc (hdone n0)
  · exact ⟨n0, Or.inl hobs⟩

/-- Closed witness for C1: two stores; store 0 holds a lock applied
before the round, store 1 is scanned before it applies that lock, the
lock is then applied on store 1 (observed), store 0's peer is removed
and only then scanned (empty); the lock is still collected. -/
theorem C1_no_silent_lock_loss_witness :
    collectedLock
      (runRound 100
        (fun n : Fin 2 =>
          if n.val = 0 then ⟨[⟨1, 50, 1⟩], [], true, none⟩
          else ⟨[], [], true, none⟩)
        [RoundEvent.scanStore 1, RoundEvent.applyLock 1 ⟨1, 50, 1⟩,
         RoundEvent.removePeer 0 1, RoundEvent.scanStore 0])
      ⟨1, 50, 1⟩ :=
  C1_no_silent_lock_loss 100
    (fun n : Fin 2 =>
      if n.val = 0 then ⟨[⟨1, 50, 1⟩], [], true, none⟩
      else ⟨[], [], true, none⟩)
    [RoundEvent.scanStore 1, RoundEvent.applyLock 1 ⟨1, 50, 1⟩,
     RoundEvent.removePeer 0 1, RoundEvent.scanStore 0]
    []
    (by intro n; fin_cases n <;> exact ⟨rfl, rfl, rfl⟩)
    ⟨_, rfl⟩
    (by intro n; fin_cases n <;> decide)
    ⟨1, 50, 1⟩ (by decide) 0 (by decide)

end TikvGc
